import Mathlib

/-!
Verification of the assembly-line balancing engine
(`line_balancing_algorithm`, `compute_positional_weights` from line.py).

The engine is embedded shallowly:
* task identifiers are a type with decidable equality,
* Python real numbers (task durations, cycle time) are rationals,
* Python dicts keyed by consecutive station numbers 1..k are lists
  (index i holds station i+1); the visible `workstations` dict, which
  contains exactly the stations that received at least one task in the
  order they were opened, is recovered by numbering the station lists
  and filtering out the empty ones,
* the `while` allocation loop is a fuel-indexed iteration: `none` means
  the fuel ran out (the source loop is still running), `some (.error e)`
  models a raised exception, `some (.ok _)` a normal return,
* the call to the graph library topological sort inside
  `compute_positional_weights` is modelled by an explicit list argument
  `topo` together with the hypothesis that it is a topological order of
  the precedence graph, which is the guarantee the library provides.
-/

set_option linter.unusedSectionVars false
set_option linter.unusedVariables false

/- The Batteries rational arithmetic definitions are sealed against
unfolding; reopening them lets concrete runs of the engine be evaluated by
kernel reduction inside `decide`. -/
attribute [local semireducible] Rat.add Rat.mul Rat.inv Rat.sub

namespace LB

/-- The two heuristics accepted by the engine (line.py line 61). -/
inductive Heuristic where
  | longest_task_time : Heuristic
  | ranked_positional_weight : Heuristic
deriving BEq, DecidableEq

/-- Caller-supplied input of `line_balancing_algorithm` (line.py lines 60-61):
the ordered task list, the duration map, the predecessor map (total function,
modelling `predecessors.get(t, [])`), the cycle time and the heuristic. -/
structure LBInput (α : Type) where
  tasks : List α
  times : α → ℚ
  predecessors : α → List α
  cycle_time : ℚ
  heuristic : Heuristic

variable {α : Type} [DecidableEq α]

/-- `sum(times[t] for t in l)`. -/
def sumDur (inp : LBInput α) (l : List α) : ℚ :=
  (l.map inp.times).sum

/-- `total_work_content = sum(times.values())` (line.py line 63); the keys of
the `times` dict are the members of `tasks`. -/
def totalWork (inp : LBInput α) : ℚ :=
  sumDur inp inp.tasks

/-- `eligible(task)` (line.py lines 81-83): unassigned and all predecessors
already assigned. -/
def eligible (predecessors : α → List α) (assigned : List α) (t : α) : Bool :=
  decide (t ∉ assigned) && decide (∀ p ∈ predecessors t, p ∈ assigned)

/-- Stable insertion of `x` into a list already sorted by descending key:
`x` goes in front of the first element whose key is not larger, so elements
with equal keys keep their original relative order, exactly as the stable
Python `list.sort(key=..., reverse=True)` does. -/
def insertDesc (key : α → ℚ) (x : α) : List α → List α
  | [] => [x]
  | y :: ys => if key y ≤ key x then x :: y :: ys else y :: insertDesc key x ys

/-- Stable sort by descending key, modelling `cand.sort(key=..., reverse=True)`
(line.py lines 90-93). -/
def sortDesc (key : α → ℚ) : List α → List α
  | [] => []
  | x :: xs => insertDesc key x (sortDesc key xs)

/-- Direct successors of `t` in the precedence graph built from the edges
`p → u` for `u` in `tasks`, `p` in `predecessors[u]` (line.py lines 42-47). -/
def successors (tasks : List α) (predecessors : α → List α) (t : α) : List α :=
  tasks.filter (fun u => decide (t ∈ predecessors u))

/-- `reachB preds n a b` holds when the precedence graph has a directed path
of length between 1 and `n` from `a` to `b` (an edge goes from a predecessor
to its dependent task). -/
def reachB (predecessors : α → List α) : Nat → α → α → Bool
  | 0, _, _ => false
  | n + 1, a, b => (predecessors b).any (fun p => decide (a = p) || reachB predecessors n a p)

/-- One step of the accumulation loop of `compute_positional_weights`
(line.py lines 52-54): `for succ in G.successors(node): pw[node] += pw[succ]`,
executed sequentially on the weight map. -/
def pwStep (tasks : List α) (predecessors : α → List α) (pw : α → ℚ) (node : α) : α → ℚ :=
  (successors tasks predecessors node).foldl
    (fun w s => Function.update w node (w node + w s)) pw

/-- `compute_positional_weights(tasks, times, predecessors)` (line.py
lines 40-55).  The list returned by the library topological sort
(roots first) is passed explicitly as `topo`; the code walks it in reverse
(leaves first), starting from `pw = {t: times[t]}`. -/
def compute_positional_weights (tasks : List α) (times : α → ℚ)
    (predecessors : α → List α) (topo : List α) : α → ℚ :=
  topo.reverse.foldl (pwStep tasks predecessors) (fun t => times t)

/-- Positional weight as the specification defines it: the duration of the
task plus the durations of all of its transitive successors, every descendant
counted once.  Used only to compare the code against the spec wording. -/
def spec_positional_weight (tasks : List α) (times : α → ℚ)
    (predecessors : α → List α) (t : α) : ℚ :=
  times t + sumDur ⟨tasks, times, predecessors, 0, .longest_task_time⟩
    (tasks.filter (fun d => reachB predecessors tasks.length t d))

/-- State of the allocation loop (line.py lines 66-68): the task lists and
cumulative times of the already closed stations 1..k-1 (in order), the task
list and cumulative time of the currently open station k, and the set of
assigned tasks (as a duplicate-free list).  `station_times` of the source is
`closedTimes ++ [curTime]`, keyed 1,2,...; `workstations` is the same
numbering of `closedStations ++ [curList]` restricted to nonempty lists. -/
structure LBState (α : Type) where
  closedStations : List (List α)
  closedTimes : List ℚ
  curList : List α
  curTime : ℚ
  assigned : List α
deriving DecidableEq

/-- Initial state: `current_station = 1`, `station_times = {1: 0}`,
nothing assigned (line.py lines 66-68). -/
def initState : LBState α := ⟨[], [], [], 0, []⟩

/-- Placing task `t` into the current station (line.py lines 97-101). -/
def place (inp : LBInput α) (t : α) (s : LBState α) : LBState α :=
  ⟨s.closedStations, s.closedTimes, s.curList ++ [t],
    s.curTime + inp.times t, s.assigned ++ [t]⟩

/-- Opening a fresh station after no candidate fit (line.py lines 103-105). -/
def openStation (s : LBState α) : LBState α :=
  ⟨s.closedStations ++ [s.curList], s.closedTimes ++ [s.curTime], [], 0, s.assigned⟩

/-- Outcome of one iteration of the `while` loop. -/
inductive LoopStep (α : Type) where
  | next : LBState α → LoopStep α
  | fail : String → LoopStep α
  | done : LBState α → LoopStep α
deriving DecidableEq

/-- The eligible candidates at state `s`, in input task order
(`[t for t in tasks if eligible(t)]`, line.py line 86). -/
def candOf (inp : LBInput α) (s : LBState α) : List α :=
  inp.tasks.filter (eligible inp.predecessors s.assigned)

/-- The capacity test of the placement scan (line.py line 97). -/
def fitB (inp : LBInput α) (s : LBState α) : α → Bool :=
  fun t => decide (s.curTime + inp.times t ≤ inp.cycle_time)

/-- One iteration of the allocation loop (line.py lines 85-105): exit when
everything is assigned; otherwise compute the eligible candidates, raise
`ValueError` when there are none, sort them by descending heuristic key, and
either place the first candidate that fits the current station or open a new
station. -/
def lbIter (inp : LBInput α) (key : α → ℚ) (s : LBState α) : LoopStep α :=
  if inp.tasks.length ≤ s.assigned.length then .done s
  else if candOf inp s = [] then
    .fail ("No eligible tasks found - check precedence data.")
  else
    match (sortDesc key (candOf inp s)).find? (fitB inp s) with
    | some t => .next (place inp t s)
    | none => .next (openStation s)

/-- The allocation loop with fuel.  `none`: fuel exhausted while the source
loop is still running; `some (.error e)`: the source raised `ValueError e`;
`some (.ok s)`: the loop finished in state `s`. -/
def lbLoop (inp : LBInput α) (key : α → ℚ) : Nat → LBState α → Option (Except String (LBState α))
  | 0, _ => none
  | fuel + 1, s =>
    match lbIter inp key s with
    | .done s1 => some (.ok s1)
    | .fail e => some (.error e)
    | .next s1 => lbLoop inp key fuel s1

/-- All station task lists, in station order (stations 1,2,...). -/
def stationsList (s : LBState α) : List (List α) :=
  s.closedStations ++ [s.curList]

/-- All station cumulative times, in station order: the final value of the
`station_times` dict. -/
def timesList (s : LBState α) : List ℚ :=
  s.closedTimes ++ [s.curTime]

/-- Pair the elements of a list with consecutive numbers starting at `n`. -/
def numbered (n : Nat) : List β → List (Nat × β)
  | [] => []
  | x :: xs => (n, x) :: numbered (n + 1) xs

/-- The `workstations` dict at state `s`: stations are numbered from 1 and
only stations that received at least one task are present (the source only
creates the key on the first `setdefault`), in the order they were opened. -/
def wsDict (s : LBState α) : List (Nat × List α) :=
  (numbered 1 (stationsList s)).filter (fun kl => !kl.2.isEmpty)

/-- The metrics record returned by the engine (line.py lines 110-117). -/
structure Metrics where
  total_work_content : ℚ
  cycle_time : ℚ
  min_stations : ℤ
  actual_stations : ℕ
  idle_time : ℚ
  efficiency : ℚ
  balance_delay : ℚ
  station_times : List (Nat × ℚ)
deriving DecidableEq

/-- The code after a normal loop exit (line.py lines 63-64 and 107-118):
`min_stations = max(1, int((total + cycle - 0.01)//cycle))`,
`actual_stations = len(workstations)`, the idle time summed over the
`station_times` dict, and the efficiency `total/(actual*cycle)*100` whose
division raises `ZeroDivisionError` when the denominator is zero. -/
def buildResult (inp : LBInput α) (s : LBState α) :
    Except String (List (Nat × List α) × Metrics) :=
  if ((wsDict s).length : ℚ) * inp.cycle_time = 0 then
    Except.error ("ZeroDivisionError: float division by zero")
  else
    Except.ok (wsDict s,
      ⟨totalWork inp, inp.cycle_time,
        max 1 ⌊(totalWork inp + inp.cycle_time - 1 / 100) / inp.cycle_time⌋,
        (wsDict s).length,
        ((timesList s).map (fun τ => inp.cycle_time - τ)).sum,
        totalWork inp / (((wsDict s).length : ℚ) * inp.cycle_time) * 100,
        100 - totalWork inp / (((wsDict s).length : ℚ) * inp.cycle_time) * 100,
        numbered 1 (timesList s)⟩)

/-- The heuristic ranking key (line.py lines 77-79 and 90-93): task duration
for `longest_task_time`, the positional weight for
`ranked_positional_weight`. -/
def keyFn (inp : LBInput α) (topo : List α) : α → ℚ :=
  match inp.heuristic with
  | .longest_task_time => inp.times
  | .ranked_positional_weight =>
      compute_positional_weights inp.tasks inp.times inp.predecessors topo

/-- `line_balancing_algorithm(tasks, times, predecessors, cycle_time,
heuristic)` (line.py lines 60-118), with the topological order `topo` used by
the ranked heuristic passed explicitly and the loop bounded by `fuel`. -/
def line_balancing_algorithm (inp : LBInput α) (topo : List α) (fuel : Nat) :
    Option (Except String (List (Nat × List α) × Metrics)) :=
  match lbLoop inp (keyFn inp topo) fuel initState with
  | none => none
  | some (.error e) => some (.error e)
  | some (.ok s) => some (buildResult inp s)

/-- The precedence graph restricted to the task list has no directed cycle
(cycles among the listed tasks have length at most `tasks.length`). -/
def AcyclicInput (inp : LBInput α) : Prop :=
  ∀ t ∈ inp.tasks, reachB inp.predecessors inp.tasks.length t t = false

/-- A valid input in the sense of the interface contract: unique task
identifiers, positive durations, positive cycle time, predecessor references
inside the task list, acyclic precedence relation. -/
def ValidInput (inp : LBInput α) : Prop :=
  inp.tasks.Nodup ∧
  (∀ t ∈ inp.tasks, 0 < inp.times t) ∧
  0 < inp.cycle_time ∧
  (∀ t ∈ inp.tasks, ∀ p ∈ inp.predecessors t, p ∈ inp.tasks) ∧
  AcyclicInput inp

instance (inp : LBInput α) : Decidable (AcyclicInput inp) := by
  unfold AcyclicInput; infer_instance

instance (inp : LBInput α) : Decidable (ValidInput inp) := by
  unfold ValidInput; infer_instance

/-- `topo` is a topological order of the precedence graph on `tasks`:
it enumerates the tasks without repetition and a task never appears before
one of its predecessors.  This is the guarantee of the library topological
sort called on line.py line 49. -/
def IsTopoOrder (tasks : List α) (predecessors : α → List α) (topo : List α) : Prop :=
  topo.Nodup ∧
  (∀ t ∈ topo, t ∈ tasks) ∧
  (∀ t ∈ tasks, t ∈ topo) ∧
  topo.Pairwise (fun a b => b ∉ predecessors a) ∧
  (∀ t ∈ tasks, t ∉ predecessors t)

instance (tasks : List α) (predecessors : α → List α) (topo : List α) :
    Decidable (IsTopoOrder tasks predecessors topo) := by
  unfold IsTopoOrder; infer_instance

/-- Per-station precedence soundness of a sequence of station task lists,
scanned in station order with the accumulated earlier tasks in `done`:
each predecessor of a placed task sits in an earlier station or earlier in
the same station. -/
def StationOk (predecessors : α → List α) (done : List α) (l : List α) : Prop :=
  ∀ t ∈ l, ∀ p ∈ predecessors t, p ∈ done ∨ [p, t].Sublist l

/-- `PrecOk preds done L`: every station of `L` is precedence-sound given the
tasks `done` already placed in stations before `L`. -/
def PrecOk (predecessors : α → List α) : List α → List (List α) → Prop
  | _, [] => True
  | done, l :: rest => StationOk predecessors done l ∧ PrecOk predecessors (done ++ l) rest

instance {ε β : Type} [DecidableEq ε] [DecidableEq β] : DecidableEq (Except ε β)
  | .error x, .error y =>
    if h : x = y then isTrue (by rw [h]) else isFalse (fun hc => h (by cases hc; rfl))
  | .error _, .ok _ => isFalse (fun hc => by cases hc)
  | .ok _, .error _ => isFalse (fun hc => by cases hc)
  | .ok x, .ok y =>
    if h : x = y then isTrue (by rw [h]) else isFalse (fun hc => h (by cases hc; rfl))

/-! ### Concrete instances used to exercise the claims -/

/-- The end-to-end scenario of the specification: tasks `A` (8 s, no
predecessors) and `B` (5 s, after `A`), cycle time 10 s, longest-task-time
heuristic. -/
def inp9 : LBInput String :=
  ⟨["A", "B"],
   fun t => if t = "A" then 8 else if t = "B" then 5 else 0,
   fun t => if t = "B" then ["A"] else [],
   10, .longest_task_time⟩

/-- Expected assignment for `inp9`: station 1 = [A], station 2 = [B]. -/
def ws9 : List (Nat × List String) := [(1, ["A"]), (2, ["B"])]

/-- Expected metrics for `inp9`. -/
def m9 : Metrics := ⟨13, 10, 2, 2, 7, 65, 35, [(1, 8), (2, 5)]⟩

/-- Final loop state of the run on `inp9`. -/
def sf9 : LBState String := ⟨[["A"]], [8], ["B"], 5, ["A", "B"]⟩

/-- A valid input (unique task, positive duration, positive cycle time,
empty acyclic predecessor map) whose single task is longer than the cycle
time. -/
def badA : LBInput String := ⟨["A"], fun _ => 15, fun _ => [], 10, .longest_task_time⟩

/-- An input whose predecessor map references the identifier `X`, which is
absent from the task list. -/
def badU : LBInput String :=
  ⟨["A", "B"],
   fun t => if t = "A" then 3 else if t = "B" then 4 else 0,
   fun t => if t = "B" then ["X"] else [],
   10, .longest_task_time⟩

/-- Diamond precedence graph 1 → 2, 1 → 3, 2 → 4, 3 → 4. -/
def tasks6 : List ℕ := [1, 2, 3, 4]

/-- Predecessor map of the diamond graph. -/
def preds6 : ℕ → List ℕ :=
  fun t => if t = 2 then [1] else if t = 3 then [1] else if t = 4 then [2, 3] else []

/-- Unit durations for the diamond graph. -/
def times6 : ℕ → ℚ := fun _ => 1

/-- Valid input with fractional durations 5.001 and 5.004 and cycle time 10:
the total work 10.005 exceeds one cycle by less than the 0.01 epsilon. -/
def inp7 : LBInput String :=
  ⟨["A", "B"],
   fun t => if t = "A" then 5001 / 1000 else if t = "B" then 5004 / 1000 else 0,
   fun _ => [],
   10, .longest_task_time⟩

/-- Metrics returned for `inp7`: the min-station field is 1 although
`ceil(10.005 / 10) = 2`. -/
def m7 : Metrics :=
  ⟨2001 / 200, 10, 1, 2, 1999 / 200, 2001 / 40, 1999 / 40,
    [(1, 1251 / 250), (2, 5001 / 1000)]⟩

/-- The empty-task-list input. -/
def inpE : LBInput String := ⟨[], fun _ => 0, fun _ => [], 10, .longest_task_time⟩

/-! ### Basic lemmas about the auxiliary list functions -/

theorem mem_insertDesc (key : α → ℚ) (x a : α) :
    ∀ l : List α, a ∈ insertDesc key x l ↔ a = x ∨ a ∈ l := by
  intro l
  induction l with
  | nil => simp [insertDesc]
  | cons y ys ih =>
      by_cases h : key y ≤ key x
      · simp [insertDesc, h]
      · simp [insertDesc, h, ih]
        tauto

theorem mem_sortDesc (key : α → ℚ) (a : α) :
    ∀ l : List α, a ∈ sortDesc key l ↔ a ∈ l := by
  intro l
  induction l with
  | nil => simp [sortDesc]
  | cons x xs ih => simp [sortDesc, mem_insertDesc, ih]

theorem length_insertDesc (key : α → ℚ) (x : α) :
    ∀ l : List α, (insertDesc key x l).length = l.length + 1 := by
  intro l
  induction l with
  | nil => rfl
  | cons y ys ih =>
      by_cases h : key y ≤ key x
      · simp [insertDesc, h]
      · simp [insertDesc, h, ih]

theorem length_sortDesc (key : α → ℚ) :
    ∀ l : List α, (sortDesc key l).length = l.length := by
  intro l
  induction l with
  | nil => rfl
  | cons x xs ih => simp [sortDesc, length_insertDesc, ih]

theorem sortDesc_ne_nil (key : α → ℚ) {l : List α} (h : l ≠ []) :
    sortDesc key l ≠ [] := by
  intro hc
  apply h
  have := length_sortDesc key l
  rw [hc] at this
  exact List.length_eq_zero.mp this.symm

theorem sumDur_append (inp : LBInput α) (l1 l2 : List α) :
    sumDur inp (l1 ++ l2) = sumDur inp l1 + sumDur inp l2 := by
  simp [sumDur]

theorem mem_candOf (inp : LBInput α) (s : LBState α) (t : α) :
    t ∈ candOf inp s ↔
      t ∈ inp.tasks ∧ t ∉ s.assigned ∧ ∀ p ∈ inp.predecessors t, p ∈ s.assigned := by
  simp [candOf, eligible, List.mem_filter, and_assoc]

/-! ### Lemmas about `numbered` -/

theorem numbered_key_lower {β : Type} {k : Nat} {x : β} :
    ∀ {n : Nat} {L : List β}, (k, x) ∈ numbered n L → n ≤ k := by
  intro n L
  induction L generalizing n with
  | nil => intro h; simp [numbered] at h
  | cons y ys ih =>
      intro h
      simp only [numbered, List.mem_cons] at h
      rcases h with h | h
      · cases h; omega
      · have := ih h; omega

theorem numbered_mem_snd {β : Type} {k : Nat} {x : β} :
    ∀ {n : Nat} {L : List β}, (k, x) ∈ numbered n L → x ∈ L := by
  intro n L
  induction L generalizing n with
  | nil => intro h; simp [numbered] at h
  | cons y ys ih =>
      intro h
      simp only [numbered, List.mem_cons] at h
      rcases h with h | h
      · cases h; simp
      · exact List.mem_cons_of_mem _ (ih h)

theorem mem_numbered_of_mem {β : Type} {x : β} :
    ∀ {n : Nat} {L : List β}, x ∈ L → ∃ k, (k, x) ∈ numbered n L := by
  intro n L
  induction L generalizing n with
  | nil => intro h; simp at h
  | cons y ys ih =>
      intro h
      rcases List.mem_cons.mp h with h | h
      · exact ⟨n, by simp [numbered, h]⟩
      · obtain ⟨k, hk⟩ := @ih (n + 1) h
        exact ⟨k, by simp [numbered, hk]⟩

theorem numbered_map_fst {β : Type} :
    ∀ (n : Nat) (L : List β), (numbered n L).map Prod.fst = List.range' n L.length := by
  intro n L
  induction L generalizing n with
  | nil => rfl
  | cons y ys ih => simp [numbered, List.range', ih]

theorem numbered_forall₂ {β γ : Type} (P : β → γ → Prop) :
    ∀ (n : Nat) (L1 : List β) (L2 : List γ), List.Forall₂ P L1 L2 →
      List.Forall₂ (fun a b => a.1 = b.1 ∧ P a.2 b.2) (numbered n L1) (numbered n L2) := by
  intro n L1 L2 h
  induction h generalizing n with
  | nil => exact List.Forall₂.nil
  | cons hab _ ih => exact List.Forall₂.cons ⟨rfl, hab⟩ (ih _)

theorem numbered_countP_snd {β : Type} (p : List β → Bool) :
    ∀ (n : Nat) (L : List (List β)),
      (numbered n L).countP (fun kl => p kl.2) = L.countP p := by
  intro n L
  induction L generalizing n with
  | nil => rfl
  | cons y ys ih => simp [numbered, List.countP_cons, ih]

theorem numbered_eq_of_mem_mem {k1 k2 : Nat} {l1 l2 : List α} {p : α} :
    ∀ {n : Nat} {L : List (List α)}, L.flatten.Nodup →
      (k1, l1) ∈ numbered n L → (k2, l2) ∈ numbered n L →
      p ∈ l1 → p ∈ l2 → k1 = k2 ∧ l1 = l2 := by
  intro n L
  induction L generalizing n with
  | nil => intro _ h; simp [numbered] at h
  | cons y ys ih =>
      intro hnd h1 h2 hp1 hp2
      rw [List.flatten_cons, List.nodup_append] at hnd
      obtain ⟨hy, hys, hdisj⟩ := hnd
      simp only [numbered, List.mem_cons] at h1 h2
      rcases h1 with h1 | h1 <;> rcases h2 with h2 | h2
      · cases h1; cases h2; exact ⟨rfl, rfl⟩
      · cases h1
        exact absurd (List.mem_flatten.mpr ⟨l2, numbered_mem_snd h2, hp2⟩) (hdisj hp1)
      · cases h2
        exact absurd (List.mem_flatten.mpr ⟨l1, numbered_mem_snd h1, hp1⟩) (hdisj hp2)
      · exact ih hys h1 h2 hp1 hp2

/-! ### Counting helpers -/

theorem countP_eq_one_of_count_flatten_one {t : α} :
    ∀ {L : List (List α)}, L.flatten.count t = 1 →
      L.countP (fun l => decide (t ∈ l)) = 1 := by
  intro L
  induction L with
  | nil => intro h; simp at h
  | cons y ys ih =>
      intro h
      rw [List.flatten_cons, List.count_append] at h
      rw [List.countP_cons]
      by_cases hy : t ∈ y
      · have h1 : 1 ≤ y.count t := List.one_le_count_iff.mpr hy
        have h0 : ys.flatten.count t = 0 := by omega
        have : ys.countP (fun l => decide (t ∈ l)) = 0 := by
          rw [List.countP_eq_zero]
          intro l hl
          simp only [decide_eq_true_eq]
          intro hmem
          have : t ∈ ys.flatten := List.mem_flatten.mpr ⟨l, hl, hmem⟩
          rw [← List.one_le_count_iff] at this
          omega
        simp [this, hy]
      · have h0 : y.count t = 0 := List.count_eq_zero.mpr hy
        have : ys.flatten.count t = 1 := by omega
        simp [hy, ih this]

theorem pair_sublist_append {p t : α} {l : List α} (h : p ∈ l) :
    [p, t].Sublist (l ++ [t]) := by
  have h1 : [p].Sublist l := List.singleton_sublist.mpr h
  have := List.Sublist.append h1 (List.Sublist.refl [t])
  simpa using this

/-! ### Structure of one loop iteration -/

theorem lbIter_spec (inp : LBInput α) (key : α → ℚ) (s : LBState α) :
    (inp.tasks.length ≤ s.assigned.length ∧ lbIter inp key s = .done s) ∨
    (s.assigned.length < inp.tasks.length ∧ candOf inp s = [] ∧
      lbIter inp key s = .fail ("No eligible tasks found - check precedence data.")) ∨
    (∃ t, s.assigned.length < inp.tasks.length ∧ candOf inp s ≠ [] ∧
      (sortDesc key (candOf inp s)).find? (fitB inp s) = some t ∧
      lbIter inp key s = .next (place inp t s)) ∨
    (s.assigned.length < inp.tasks.length ∧ candOf inp s ≠ [] ∧
      (sortDesc key (candOf inp s)).find? (fitB inp s) = none ∧
      lbIter inp key s = .next (openStation s)) := by
  unfold lbIter
  by_cases h1 : inp.tasks.length ≤ s.assigned.length
  · left; exact ⟨h1, by rw [if_pos h1]⟩
  · have hlt : s.assigned.length < inp.tasks.length := by omega
    by_cases h2 : candOf inp s = []
    · right; left
      exact ⟨hlt, h2, by rw [if_neg h1, if_pos h2]⟩
    · cases hf : (sortDesc key (candOf inp s)).find? (fitB inp s) with
      | some t =>
          right; right; left
          refine ⟨t, hlt, h2, rfl, ?_⟩
          rw [if_neg h1, if_neg h2]
      | none =>
          right; right; right
          refine ⟨hlt, h2, rfl, ?_⟩
          rw [if_neg h1, if_neg h2]

theorem lbLoop_zero (inp : LBInput α) (key : α → ℚ) (s : LBState α) :
    lbLoop inp key 0 s = none := rfl

theorem lbLoop_succ (inp : LBInput α) (key : α → ℚ) (fuel : Nat) (s : LBState α) :
    lbLoop inp key (fuel + 1) s =
      match lbIter inp key s with
      | .done s1 => some (.ok s1)
      | .fail e => some (.error e)
      | .next s1 => lbLoop inp key fuel s1 := rfl

/-- Generic invariant propagation along a successfully returning loop run:
any predicate preserved by every `.next` step (or after which the loop can
no longer return normally) holds in the final state, which moreover has all
tasks assigned. -/
theorem lbLoop_ok_inv (inp : LBInput α) (key : α → ℚ) (P : LBState α → Prop)
    (hpres : ∀ s s1, P s → lbIter inp key s = .next s1 →
      P s1 ∨ ∀ f r, lbLoop inp key f s1 ≠ some (.ok r)) :
    ∀ (fuel : Nat) (s sf : LBState α), P s → lbLoop inp key fuel s = some (.ok sf) →
      P sf ∧ inp.tasks.length ≤ sf.assigned.length := by
  intro fuel
  induction fuel with
  | zero => intro s sf _ h; rw [lbLoop_zero] at h; cases h
  | succ fuel ih =>
      intro s sf hP h
      rw [lbLoop_succ] at h
      rcases lbIter_spec inp key s with ⟨hle, hit⟩ | ⟨_, _, hit⟩ |
        ⟨t, _, _, _, hit⟩ | ⟨_, _, _, hit⟩
      · rw [hit] at h
        have : s = sf := by
          have := Option.some.inj h
          exact Except.ok.inj this
        subst this
        exact ⟨hP, hle⟩
      · rw [hit] at h
        exact absurd (Option.some.inj h) (by intro hc; cases hc)
      · rw [hit] at h
        rcases hpres s (place inp t s) hP hit with h1 | h1
        · exact ih _ _ h1 h
        · exact absurd h (h1 fuel sf)
      · rw [hit] at h
        rcases hpres s (openStation s) hP hit with h1 | h1
        · exact ih _ _ h1 h
        · exact absurd h (h1 fuel sf)

/-- The only error ever raised by the loop is the `ValueError` of the
empty-candidate check. -/
theorem lbLoop_error_msg (inp : LBInput α) (key : α → ℚ) :
    ∀ (fuel : Nat) (s : LBState α) (e : String),
      lbLoop inp key fuel s = some (.error e) →
      e = "No eligible tasks found - check precedence data." := by
  intro fuel
  induction fuel with
  | zero => intro s e h; rw [lbLoop_zero] at h; cases h
  | succ fuel ih =>
      intro s e h
      rw [lbLoop_succ] at h
      rcases lbIter_spec inp key s with ⟨_, hit⟩ | ⟨_, _, hit⟩ |
        ⟨t, _, _, _, hit⟩ | ⟨_, _, _, hit⟩
      · rw [hit] at h
        exact absurd (Option.some.inj h) (by intro hc; cases hc)
      · rw [hit] at h
        have := Option.some.inj h
        exact (Except.error.inj this).symm
      · rw [hit] at h; exact ih _ _ h
      · rw [hit] at h; exact ih _ _ h

/-- A state whose open station is empty and none of whose candidates fits an
empty station dooms the loop: it can never return normally, for the very same
candidate set reappears at every later iteration. -/
theorem lbLoop_no_ok_of_stuck (inp : LBInput α) (key : α → ℚ) :
    ∀ (fuel : Nat) (s : LBState α), s.curTime = 0 →
      (∀ c ∈ candOf inp s, ¬ inp.times c ≤ inp.cycle_time) →
      s.assigned.length < inp.tasks.length →
      ∀ r, lbLoop inp key fuel s ≠ some (.ok r) := by
  intro fuel
  induction fuel with
  | zero => intro s _ _ _ r h; rw [lbLoop_zero] at h; cases h
  | succ fuel ih =>
      intro s h0 hbig hlt r h
      rw [lbLoop_succ] at h
      rcases lbIter_spec inp key s with ⟨hle, hit⟩ | ⟨_, _, hit⟩ |
        ⟨t, _, _, hf, hit⟩ | ⟨_, _, hf, hit⟩
      · omega
      · rw [hit] at h
        exact absurd (Option.some.inj h) (by intro hc; cases hc)
      · -- a placement is impossible: nothing fits an empty station
        have hmem : t ∈ candOf inp s :=
          (mem_sortDesc key t _).mp (List.mem_of_find?_eq_some hf)
        have hfit := List.find?_some hf
        simp only [fitB, decide_eq_true_eq] at hfit
        rw [h0, zero_add] at hfit
        exact absurd hfit (hbig t hmem)
      · rw [hit] at h
        refine ih (openStation s) rfl ?_ hlt r h
        intro c hc
        exact hbig c hc

/-! ### Termination when every task fits inside one cycle -/

/-- When every duration is at most the cycle time, each iteration either
finishes, raises, places a task, or opens a station into which the very next
iteration places a task (the head of the nonempty candidate list fits an
empty station), so `2*(remaining tasks)+1` rounds of fuel always suffice. -/
theorem lbLoop_isSome_of_fits (inp : LBInput α) (key : α → ℚ)
    (hfit : ∀ t ∈ inp.tasks, inp.times t ≤ inp.cycle_time) :
    ∀ (u fuel : Nat) (s : LBState α),
      inp.tasks.length - s.assigned.length ≤ u → 2 * u + 1 ≤ fuel →
      (lbLoop inp key fuel s).isSome := by
  intro u
  induction u with
  | zero =>
      intro fuel s hd hf
      obtain ⟨f, rfl⟩ : ∃ f, fuel = f + 1 := ⟨fuel - 1, by omega⟩
      rw [lbLoop_succ]
      rcases lbIter_spec inp key s with ⟨_, hit⟩ | ⟨hlt, _, hit⟩ |
        ⟨t, hlt, _, _, hit⟩ | ⟨hlt, _, _, hit⟩
      · rw [hit]; rfl
      · omega
      · omega
      · omega
  | succ u ih =>
      intro fuel s hd hf
      obtain ⟨f, rfl⟩ : ∃ f, fuel = f + 1 := ⟨fuel - 1, by omega⟩
      rw [lbLoop_succ]
      rcases lbIter_spec inp key s with ⟨_, hit⟩ | ⟨_, _, hit⟩ |
        ⟨t, hlt, _, _, hit⟩ | ⟨hlt, hcand, hfind, hit⟩
      · rw [hit]; rfl
      · rw [hit]; rfl
      · rw [hit]
        refine ih f (place inp t s) ?_ ?_
        · simp only [place, List.length_append, List.length_cons, List.length_nil]
          omega
        · omega
      · rw [hit]
        obtain ⟨f1, rfl⟩ : ∃ f1, f = f1 + 1 := ⟨f - 1, by omega⟩
        show (lbLoop inp key (f1 + 1) (openStation s)).isSome = true
        rw [lbLoop_succ]
        rcases lbIter_spec inp key (openStation s) with ⟨_, hit1⟩ | ⟨_, _, hit1⟩ |
          ⟨t, hlt1, _, _, hit1⟩ | ⟨hlt1, hcand1, hfind1, hit1⟩
        · rw [hit1]; rfl
        · rw [hit1]; rfl
        · rw [hit1]
          refine ih f1 (place inp t (openStation s)) ?_ ?_
          · simp only [place, openStation, List.length_append, List.length_cons,
              List.length_nil]
            simp only [openStation] at hlt1
            omega
          · omega
        · -- impossible: the head of the sorted nonempty candidate list fits
          exfalso
          have hcand2 : candOf inp (openStation s) ≠ [] := hcand1
          obtain ⟨c, hc⟩ : ∃ c, c ∈ sortDesc key (candOf inp (openStation s)) := by
            cases hs : sortDesc key (candOf inp (openStation s)) with
            | nil => exact absurd hs (sortDesc_ne_nil key hcand2)
            | cons c cs => exact ⟨c, by simp⟩
          have hcmem : c ∈ candOf inp (openStation s) := (mem_sortDesc key c _).mp hc
          have hctask : c ∈ inp.tasks := ((mem_candOf inp _ c).mp hcmem).1
          have := List.find?_eq_none.mp hfind1 c hc
          simp only [fitB, decide_eq_true_eq] at this
          apply this
          show (openStation s).curTime + inp.times c ≤ inp.cycle_time
          have : (openStation s).curTime = 0 := rfl
          rw [this, zero_add]
          exact hfit c hctask

/-! ### Small invariants of the allocation loop -/

/-- Structural invariant: the assigned list is duplicate-free, contains only
input tasks, and is (up to permutation) the concatenation of all station
task lists.  It needs no validity assumption at all. -/
def Inv0 (inp : LBInput α) (s : LBState α) : Prop :=
  s.assigned.Nodup ∧
  (∀ x ∈ s.assigned, x ∈ inp.tasks) ∧
  (stationsList s).flatten.Perm s.assigned

theorem stationsList_place (inp : LBInput α) (t : α) (s : LBState α) :
    stationsList (place inp t s) = s.closedStations ++ [s.curList ++ [t]] := rfl

theorem stationsList_open (s : LBState α) :
    stationsList (openStation s) = stationsList s ++ [[]] := by
  simp [stationsList, openStation]

theorem flatten_stationsList (s : LBState α) :
    (stationsList s).flatten = s.closedStations.flatten ++ s.curList := by
  simp [stationsList]

theorem inv0_place (inp : LBInput α) {t : α} {s : LBState α}
    (hmem : t ∈ candOf inp s) (h : Inv0 inp s) : Inv0 inp (place inp t s) := by
  obtain ⟨hnd, hsub, hperm⟩ := h
  obtain ⟨htask, hnotin, _⟩ := (mem_candOf inp s t).mp hmem
  refine ⟨?_, ?_, ?_⟩
  · simp only [place]
    rw [List.nodup_append]
    refine ⟨hnd, List.nodup_singleton t, ?_⟩
    intro a ha hb
    simp only [List.mem_singleton] at hb
    subst hb
    exact hnotin ha
  · intro x hx
    simp only [place, List.mem_append, List.mem_singleton] at hx
    rcases hx with hx | hx
    · exact hsub x hx
    · subst hx; exact htask
  · show (stationsList (place inp t s)).flatten.Perm (s.assigned ++ [t])
    rw [stationsList_place]
    have : (s.closedStations ++ [s.curList ++ [t]]).flatten =
        (stationsList s).flatten ++ [t] := by
      simp [stationsList]
    rw [this]
    exact List.Perm.append_right [t] hperm

theorem inv0_open (inp : LBInput α) {s : LBState α} (h : Inv0 inp s) :
    Inv0 inp (openStation s) := by
  obtain ⟨hnd, hsub, hperm⟩ := h
  refine ⟨hnd, hsub, ?_⟩
  show (stationsList (openStation s)).flatten.Perm s.assigned
  rw [stationsList_open]
  simpa using hperm

theorem inv0_next (inp : LBInput α) (key : α → ℚ) {s s1 : LBState α}
    (h : Inv0 inp s) (hit : lbIter inp key s = .next s1) : Inv0 inp s1 := by
  rcases lbIter_spec inp key s with ⟨_, hit1⟩ | ⟨_, _, hit1⟩ |
    ⟨t, _, _, hf, hit1⟩ | ⟨_, _, _, hit1⟩
  · rw [hit1] at hit; cases hit
  · rw [hit1] at hit; cases hit
  · rw [hit1] at hit
    have : s1 = place inp t s := (LoopStep.next.inj hit).symm
    subst this
    exact inv0_place inp ((mem_sortDesc key t _).mp (List.mem_of_find?_eq_some hf)) h
  · rw [hit1] at hit
    have : s1 = openStation s := (LoopStep.next.inj hit).symm
    subst this
    exact inv0_open inp h

theorem inv0_init (inp : LBInput α) : Inv0 inp (initState : LBState α) := by
  refine ⟨List.nodup_nil, ?_, ?_⟩
  · intro x hx; cases hx
  · simp [initState, stationsList]

/-! ### Preservation of per-station precedence soundness -/

theorem precOk_place (predecessors : α → List α) (t : α) :
    ∀ (L : List (List α)) (d cur : List α),
      PrecOk predecessors d (L ++ [cur]) →
      (∀ p ∈ predecessors t, p ∈ d ∨ p ∈ L.flatten ∨ p ∈ cur) →
      PrecOk predecessors d (L ++ [cur ++ [t]]) := by
  intro L
  induction L with
  | nil =>
      intro d cur h hp
      obtain ⟨hst, _⟩ := h
      refine ⟨?_, trivial⟩
      intro x hx p hpx
      rcases List.mem_append.mp hx with hx | hx
      · rcases hst x hx p hpx with h1 | h1
        · exact Or.inl h1
        · exact Or.inr (List.Sublist.trans h1 (by simp))
      · simp only [List.mem_singleton] at hx
        subst hx
        rcases hp p hpx with h1 | h1 | h1
        · exact Or.inl h1
        · simp at h1
        · exact Or.inr (pair_sublist_append h1)
  | cons c L ih =>
      intro d cur h hp
      obtain ⟨hst, hrest⟩ := h
      refine ⟨hst, ?_⟩
      refine ih (d ++ c) cur hrest ?_
      intro p hpx
      rcases hp p hpx with h1 | h1 | h1
      · exact Or.inl (List.mem_append.mpr (Or.inl h1))
      · rw [List.flatten_cons, List.mem_append] at h1
        rcases h1 with h1 | h1
        · exact Or.inl (List.mem_append.mpr (Or.inr h1))
        · exact Or.inr (Or.inl h1)
      · exact Or.inr (Or.inr h1)

theorem precOk_open (predecessors : α → List α) :
    ∀ (L : List (List α)) (d : List α),
      PrecOk predecessors d L → PrecOk predecessors d (L ++ [[]]) := by
  intro L
  induction L with
  | nil =>
      intro d _
      refine ⟨?_, trivial⟩
      intro x hx; cases hx
  | cons c L ih =>
      intro d h
      obtain ⟨hst, hrest⟩ := h
      exact ⟨hst, ih (d ++ c) hrest⟩

/-- Walking `PrecOk` along the numbered stations: every predecessor of a
placed task is in the `done` prefix or in a station that is not later, and
in the latter case an equal station number forces the very same station with
the predecessor placed earlier. -/
theorem precOk_exists (predecessors : α → List α) :
    ∀ (L : List (List α)) (n : Nat) (d : List α), PrecOk predecessors d L →
      ∀ kt lt, (kt, lt) ∈ numbered n L → ∀ t ∈ lt, ∀ p ∈ predecessors t,
        p ∈ d ∨ ∃ kp lp, (kp, lp) ∈ numbered n L ∧ p ∈ lp ∧ kp ≤ kt ∧
          (kp = kt → lp = lt ∧ [p, t].Sublist lt) := by
  intro L
  induction L with
  | nil => intro n d _ kt lt h; simp [numbered] at h
  | cons c L ih =>
      intro n d h kt lt hmem t ht p hp
      obtain ⟨hst, hrest⟩ := h
      simp only [numbered, List.mem_cons] at hmem
      rcases hmem with hmem | hmem
      · injection hmem with h1 h2
        subst h1; subst h2
        rcases hst t ht p hp with h1 | h1
        · exact Or.inl h1
        · refine Or.inr ⟨kt, lt, ?_, ?_, le_refl kt, fun _ => ⟨rfl, h1⟩⟩
          · simp [numbered]
          · have : p ∈ [p, t] := by simp
            exact (List.Sublist.subset h1) this
      · rcases ih (n + 1) (d ++ c) hrest kt lt hmem t ht p hp with h1 | h1
        · rcases List.mem_append.mp h1 with h2 | h2
          · exact Or.inl h2
          · refine Or.inr ⟨n, c, by simp [numbered], h2, ?_, ?_⟩
            · have := numbered_key_lower hmem; omega
            · intro hk
              have := numbered_key_lower hmem
              omega
        · obtain ⟨kp, lp, hm, hplp, hle, himp⟩ := h1
          exact Or.inr ⟨kp, lp, by simp [numbered, hm], hplp, hle, himp⟩

/-! ### The master invariant -/

/-- Full invariant of the allocation loop under a nonnegative cycle time:
structural soundness (`Inv0`), agreement of the recorded cumulative times
with the station contents, the capacity bound, nonemptiness of every closed
station, the exit condition, and precedence soundness of the stations. -/
structure Inv (inp : LBInput α) (s : LBState α) : Prop where
  inv0 : Inv0 inp s
  len_eq : s.closedTimes.length = s.closedStations.length
  times_eq : List.Forall₂ (fun τ l => τ = sumDur inp l) s.closedTimes s.closedStations
  cur_eq : s.curTime = sumDur inp s.curList
  closed_le : ∀ l ∈ s.closedStations, sumDur inp l ≤ inp.cycle_time
  cur_le : s.curTime ≤ inp.cycle_time
  closed_ne : ∀ l ∈ s.closedStations, l ≠ []
  exitcond : s.assigned.length < inp.tasks.length ∨ s.curList ≠ []
  prec : PrecOk inp.predecessors [] (stationsList s)

theorem inv_place (inp : LBInput α) {t : α} {s : LBState α}
    (hmem : t ∈ candOf inp s) (hfit : s.curTime + inp.times t ≤ inp.cycle_time)
    (h : Inv inp s) : Inv inp (place inp t s) := by
  obtain ⟨htask, hnotin, hpreds⟩ := (mem_candOf inp s t).mp hmem
  refine ⟨inv0_place inp hmem h.inv0, h.len_eq, h.times_eq, ?_, h.closed_le, ?_, h.closed_ne,
    Or.inr (by simp [place]), ?_⟩
  · show s.curTime + inp.times t = sumDur inp (s.curList ++ [t])
    rw [sumDur_append, h.cur_eq]
    simp [sumDur]
  · show s.curTime + inp.times t ≤ inp.cycle_time
    exact hfit
  · rw [stationsList_place]
    refine precOk_place inp.predecessors t s.closedStations [] s.curList
      (by rw [← stationsList]; exact h.prec) ?_
    intro p hp
    have hpa : p ∈ s.assigned := hpreds p hp
    have : p ∈ (stationsList s).flatten := (h.inv0.2.2.mem_iff).mpr hpa
    rw [flatten_stationsList] at this
    rcases List.mem_append.mp this with h1 | h1
    · exact Or.inr (Or.inl h1)
    · exact Or.inr (Or.inr h1)

theorem inv_open (inp : LBInput α) {s : LBState α} (hC : 0 ≤ inp.cycle_time)
    (hlt : s.assigned.length < inp.tasks.length) (hne : s.curList ≠ [])
    (h : Inv inp s) : Inv inp (openStation s) := by
  refine ⟨inv0_open inp h.inv0, ?_, ?_, ?_, ?_, ?_, ?_, Or.inl hlt, ?_⟩
  · simp [openStation, h.len_eq]
  · show List.Forall₂ _ (s.closedTimes ++ [s.curTime]) (s.closedStations ++ [s.curList])
    exact List.rel_append h.times_eq (List.forall₂_cons.mpr ⟨h.cur_eq, List.Forall₂.nil⟩)
  · show (0 : ℚ) = sumDur inp []
    simp [sumDur]
  · intro l hl
    rcases List.mem_append.mp hl with h1 | h1
    · exact h.closed_le l h1
    · simp only [List.mem_singleton] at h1
      subst h1
      rw [← h.cur_eq]
      exact h.cur_le
  · show (0 : ℚ) ≤ inp.cycle_time
    exact hC
  · intro l hl
    rcases List.mem_append.mp hl with h1 | h1
    · exact h.closed_ne l h1
    · simp only [List.mem_singleton] at h1
      subst h1
      exact hne
  · rw [stationsList_open]
    exact precOk_open inp.predecessors _ _ h.prec

theorem inv_next (inp : LBInput α) (key : α → ℚ) (hC : 0 ≤ inp.cycle_time)
    {s s1 : LBState α} (h : Inv inp s) (hit : lbIter inp key s = .next s1) :
    Inv inp s1 ∨ ∀ f r, lbLoop inp key f s1 ≠ some (.ok r) := by
  rcases lbIter_spec inp key s with ⟨_, hit1⟩ | ⟨_, _, hit1⟩ |
    ⟨t, _, _, hf, hit1⟩ | ⟨hlt, _, hfind, hit1⟩
  · rw [hit1] at hit; cases hit
  · rw [hit1] at hit; cases hit
  · rw [hit1] at hit
    have heq : s1 = place inp t s := (LoopStep.next.inj hit).symm
    subst heq
    have hmem : t ∈ candOf inp s := (mem_sortDesc key t _).mp (List.mem_of_find?_eq_some hf)
    have hfit := List.find?_some hf
    simp only [fitB, decide_eq_true_eq] at hfit
    exact Or.inl (inv_place inp hmem hfit h)
  · rw [hit1] at hit
    have heq : s1 = openStation s := (LoopStep.next.inj hit).symm
    subst heq
    by_cases hne : s.curList = []
    · -- the current station is empty and nothing fits: the loop is doomed
      right
      intro f r
      refine lbLoop_no_ok_of_stuck inp key f (openStation s) rfl ?_ hlt r
      intro c hc
      have hc2 : c ∈ sortDesc key (candOf inp s) := (mem_sortDesc key c _).mpr hc
      have := List.find?_eq_none.mp hfind c hc2
      simp only [fitB, decide_eq_true_eq] at this
      intro hle
      apply this
      have h0 : s.curTime = 0 := by
        rw [h.cur_eq, hne]
        simp [sumDur]
      rw [h0, zero_add]
      exact hle
    · exact Or.inl (inv_open inp hC hlt hne h)

theorem inv_init (inp : LBInput α) (hC : 0 ≤ inp.cycle_time)
    (hne : inp.tasks ≠ []) : Inv inp (initState : LBState α) := by
  refine ⟨inv0_init inp, rfl, List.Forall₂.nil, by simp [initState, sumDur], ?_, ?_, ?_, ?_, ?_⟩
  · intro l hl; cases hl
  · show (0 : ℚ) ≤ inp.cycle_time
    exact hC
  · intro l hl; cases hl
  · left
    show (0 : Nat) < inp.tasks.length
    exact List.length_pos.mpr hne
  · show PrecOk inp.predecessors [] [[]]
    refine ⟨?_, trivial⟩
    intro x hx; cases hx

/-! ### The loop never finishes normally when a task has an unknown predecessor -/

/-- A task with a predecessor outside the task list is never eligible, hence
never assigned, so the loop can never reach the all-assigned exit. -/
theorem lbLoop_no_ok_of_unknown_pred (inp : LBInput α) (key : α → ℚ)
    {t0 p0 : α} (ht0 : t0 ∈ inp.tasks) (hp0 : p0 ∈ inp.predecessors t0)
    (hout : p0 ∉ inp.tasks) :
    ∀ (fuel : Nat) (s : LBState α), Inv0 inp s → t0 ∉ s.assigned →
      ∀ r, lbLoop inp key fuel s ≠ some (.ok r) := by
  intro fuel
  induction fuel with
  | zero => intro s _ _ r h; rw [lbLoop_zero] at h; cases h
  | succ fuel ih =>
      intro s h0 hna r h
      rw [lbLoop_succ] at h
      rcases lbIter_spec inp key s with ⟨hle, hit⟩ | ⟨_, _, hit⟩ |
        ⟨t, _, _, hf, hit⟩ | ⟨_, _, _, hit⟩
      · -- the exit is impossible: `assigned` misses `t0`
        exfalso
        have hsub : s.assigned ⊆ inp.tasks.filter (fun x => decide (x ≠ t0)) := by
          intro x hx
          rw [List.mem_filter]
          refine ⟨h0.2.1 x hx, ?_⟩
          simp only [decide_eq_true_eq]
          intro hc
          subst hc
          exact hna hx
        have hlen := List.Subperm.length_le (List.Nodup.subperm h0.1 hsub)
        have hflt : (inp.tasks.filter (fun x => decide (x ≠ t0))).length <
            inp.tasks.length := by
          rw [List.length_filter_lt_length_iff_exists]
          exact ⟨t0, ht0, by simp⟩
        omega
      · rw [hit] at h
        exact absurd (Option.some.inj h) (by intro hc; cases hc)
      · rw [hit] at h
        refine ih (place inp t s)
          (inv0_place inp ((mem_sortDesc key t _).mp (List.mem_of_find?_eq_some hf)) h0)
          ?_ r h
        have hmem := (mem_sortDesc key t _).mp (List.mem_of_find?_eq_some hf)
        obtain ⟨_, _, hpreds⟩ := (mem_candOf inp s t).mp hmem
        have htne : t ≠ t0 := by
          intro hc
          subst hc
          exact hout (h0.2.1 p0 (hpreds p0 hp0))
        simp only [place, List.mem_append, List.mem_singleton]
        intro hc
        rcases hc with hc | hc
        · exact hna hc
        · exact htne hc.symm
      · rw [hit] at h
        exact ih (openStation s) (inv0_open inp h0) hna r h

/-! ### Unfolding the full algorithm -/

theorem algorithm_inv (inp : LBInput α) (topo : List α) {fuel : Nat}
    {ws : List (Nat × List α)} {m : Metrics}
    (h : line_balancing_algorithm inp topo fuel = some (.ok (ws, m))) :
    ∃ sf, lbLoop inp (keyFn inp topo) fuel initState = some (.ok sf) ∧
      buildResult inp sf = .ok (ws, m) := by
  unfold line_balancing_algorithm at h
  cases hl : lbLoop inp (keyFn inp topo) fuel initState with
  | none => rw [hl] at h; cases h
  | some r =>
      cases r with
      | error e =>
          rw [hl] at h
          exact absurd (Option.some.inj h) (by intro hc; cases hc)
      | ok sf =>
          rw [hl] at h
          exact ⟨sf, rfl, Option.some.inj h⟩

theorem buildResult_inv (inp : LBInput α) {s : LBState α}
    {ws : List (Nat × List α)} {m : Metrics}
    (h : buildResult inp s = .ok (ws, m)) :
    ((wsDict s).length : ℚ) * inp.cycle_time ≠ 0 ∧ ws = wsDict s ∧
      m = ⟨totalWork inp, inp.cycle_time,
        max 1 ⌊(totalWork inp + inp.cycle_time - 1 / 100) / inp.cycle_time⌋,
        (wsDict s).length,
        ((timesList s).map (fun τ => inp.cycle_time - τ)).sum,
        totalWork inp / (((wsDict s).length : ℚ) * inp.cycle_time) * 100,
        100 - totalWork inp / (((wsDict s).length : ℚ) * inp.cycle_time) * 100,
        numbered 1 (timesList s)⟩ := by
  unfold buildResult at h
  by_cases hz : ((wsDict s).length : ℚ) * inp.cycle_time = 0
  · rw [if_pos hz] at h; cases h
  · rw [if_neg hz] at h
    have := Except.ok.inj h
    have h1 : ws = wsDict s := (congrArg Prod.fst this).symm
    have h2 := (congrArg Prod.snd this).symm
    exact ⟨hz, h1, h2⟩

/-- With an empty task list the loop exits at once, the `workstations` dict
is empty, and the efficiency division raises `ZeroDivisionError`: the
algorithm never returns a result for the empty input. -/
theorem no_ok_of_tasks_nil (inp : LBInput α) (topo : List α)
    (h : inp.tasks = []) :
    ∀ (fuel : Nat) (r : List (Nat × List α) × Metrics),
      line_balancing_algorithm inp topo fuel ≠ some (.ok r) := by
  intro fuel r hc
  obtain ⟨sf, hl, hb⟩ := algorithm_inv inp topo hc
  obtain ⟨r1, r2⟩ := r
  -- the loop exits immediately in the initial state
  have hsf : sf = initState := by
    cases fuel with
    | zero => rw [lbLoop_zero] at hl; cases hl
    | succ f =>
        rw [lbLoop_succ] at hl
        rcases lbIter_spec inp (keyFn inp topo) initState with ⟨_, hit⟩ | ⟨hlt, _, _⟩ |
          ⟨t, hlt, _, _, _⟩ | ⟨hlt, _, _, _⟩
        · rw [hit] at hl
          exact (Except.ok.inj (Option.some.inj hl)).symm
        · rw [h] at hlt; simp [initState] at hlt
        · rw [h] at hlt; simp [initState] at hlt
        · rw [h] at hlt; simp [initState] at hlt
  subst hsf
  have hws : wsDict (initState : LBState α) = [] := rfl
  obtain ⟨hz, _, _⟩ := buildResult_inv inp hb
  rw [hws] at hz
  simp at hz

/-! ### Dictionary view of the stations -/

theorem mem_wsDict (s : LBState α) {k : Nat} {l : List α} :
    (k, l) ∈ wsDict s ↔ (k, l) ∈ numbered 1 (stationsList s) ∧ l ≠ [] := by
  unfold wsDict
  rw [List.mem_filter]
  simp [List.isEmpty_iff]

theorem wsDict_eq_numbered (s : LBState α)
    (h : ∀ l ∈ stationsList s, l ≠ []) :
    wsDict s = numbered 1 (stationsList s) := by
  unfold wsDict
  rw [List.filter_eq_self]
  intro kl hkl
  simp only [Bool.not_eq_true', List.isEmpty_eq_false]
  exact h kl.2 (numbered_mem_snd hkl)

theorem wsDict_ne_nil (s : LBState α) {l : List α}
    (hl : l ∈ stationsList s) (hne : l ≠ []) : wsDict s ≠ [] := by
  obtain ⟨k, hk⟩ := mem_numbered_of_mem (n := 1) hl
  have : (k, l) ∈ wsDict s := (mem_wsDict s).mpr ⟨hk, hne⟩
  exact List.ne_nil_of_mem this

/-! ### Integer-valued rationals and the epsilon-adjusted station bound -/

theorem den_one_add {a b : ℚ} (ha : a.den = 1) (hb : b.den = 1) : (a + b).den = 1 := by
  have ha1 := (Rat.den_eq_one_iff a).mp ha
  have hb1 := (Rat.den_eq_one_iff b).mp hb
  have : a + b = ((a.num + b.num : ℤ) : ℚ) := by push_cast; rw [ha1, hb1]
  rw [this]
  exact Rat.den_intCast _

theorem den_one_sum : ∀ l : List ℚ, (∀ x ∈ l, x.den = 1) → l.sum.den = 1 := by
  intro l
  induction l with
  | nil => intro _; rfl
  | cons x xs ih =>
      intro h
      rw [List.sum_cons]
      exact den_one_add (h x (by simp)) (ih (fun y hy => h y (by simp [hy])))

theorem one_le_of_den_one_pos {q : ℚ} (hd : q.den = 1) (hp : 0 < q) : 1 ≤ q := by
  have h1 := (Rat.den_eq_one_iff q).mp hd
  have h2 : 0 < q.num := by
    rw [← h1] at hp
    exact_mod_cast hp
  have h3 : (1 : ℤ) ≤ q.num := h2
  calc (1 : ℚ) = ((1 : ℤ) : ℚ) := by norm_num
    _ ≤ (q.num : ℚ) := by exact_mod_cast h3
    _ = q := h1

theorem one_le_sum {l : List ℚ} (h : ∀ x ∈ l, 1 ≤ x) (hne : l ≠ []) : 1 ≤ l.sum := by
  cases l with
  | nil => exact absurd rfl hne
  | cons x xs =>
      rw [List.sum_cons]
      have h1 : 1 ≤ x := h x (by simp)
      have h2 : 0 ≤ xs.sum :=
        List.sum_nonneg (fun y hy => le_trans zero_le_one (h y (by simp [hy])))
      linarith

/-- The value `max(1, int((W + C - 0.01)//C))` computed by the engine equals
the exact ceiling of `W / C` whenever the total work and the cycle time are
positive integers. -/
theorem epsilon_floor_eq_ceil {W C : ℚ} (hWd : W.den = 1) (hCd : C.den = 1)
    (hW : 1 ≤ W) (hC : 1 ≤ C) :
    max 1 ⌊(W + C - 1 / 100) / C⌋ = ⌈W / C⌉ := by
  have hC0 : 0 < C := lt_of_lt_of_le one_pos hC
  have hW0 : 0 < W := lt_of_lt_of_le one_pos hW
  have hWn := (Rat.den_eq_one_iff W).mp hWd
  have hCn := (Rat.den_eq_one_iff C).mp hCd
  set q : ℤ := ⌈W / C⌉ with hqdef
  have hq1 : 1 ≤ q := Int.ceil_pos.mpr (div_pos hW0 hC0)
  have hWle : W ≤ (q : ℚ) * C := by
    have h1 : W / C ≤ (q : ℚ) := Int.le_ceil (W / C)
    exact (div_le_iff₀ hC0).mp h1
  have hlow : ((q : ℚ) - 1) * C < W := by
    have h2 : ¬(W / C ≤ ((q - 1 : ℤ) : ℚ)) := by
      intro hcon
      have h3 : q ≤ q - 1 := Int.ceil_le.mpr hcon
      omega
    have h4 : ((q - 1 : ℤ) : ℚ) < W / C := not_le.mp h2
    have h5 := (lt_div_iff₀ hC0).mp h4
    calc ((q : ℚ) - 1) * C = ((q - 1 : ℤ) : ℚ) * C := by push_cast; ring
      _ < W := h5
  have hint : ((q : ℚ) - 1) * C + 1 ≤ W := by
    have h6 : (q - 1) * C.num < W.num := by
      have h7 : (((q - 1) * C.num : ℤ) : ℚ) < ((W.num : ℤ) : ℚ) := by
        push_cast
        rw [hCn, hWn]
        exact hlow
      exact_mod_cast h7
    have h8 : (q - 1) * C.num + 1 ≤ W.num := by omega
    rw [← hCn, ← hWn]
    exact_mod_cast h8
  have hfloor : ⌊(W + C - 1 / 100) / C⌋ = q := by
    rw [Int.floor_eq_iff]
    constructor
    · rw [le_div_iff₀ hC0]
      have : (q : ℚ) * C = ((q : ℚ) - 1) * C + C := by ring
      linarith
    · rw [div_lt_iff₀ hC0]
      have : ((q : ℚ) + 1) * C = (q : ℚ) * C + C := by ring
      linarith
  rw [hfloor]
  exact max_eq_right hq1

/-! ### Correctness of the positional-weight accumulation -/

theorem mem_successors (tasks : List α) (predecessors : α → List α) (a t : α) :
    a ∈ successors tasks predecessors t ↔ a ∈ tasks ∧ t ∈ predecessors a := by
  simp [successors, List.mem_filter]

theorem foldl_update_eval (node : α) :
    ∀ (sl : List α) (w : α → ℚ), node ∉ sl →
      (sl.foldl (fun w s => Function.update w node (w node + w s)) w) node =
        w node + (sl.map w).sum ∧
      ∀ y, y ≠ node →
        (sl.foldl (fun w s => Function.update w node (w node + w s)) w) y = w y := by
  intro sl
  induction sl with
  | nil => intro w _; simp
  | cons s sl ih =>
      intro w hn
      have hns : node ≠ s := fun hc => hn (by simp [hc])
      have hnsl : node ∉ sl := fun hc => hn (by simp [hc])
      obtain ⟨ih1, ih2⟩ := ih (Function.update w node (w node + w s)) hnsl
      constructor
      · rw [List.foldl_cons, ih1, Function.update_same]
        have hmap : sl.map (Function.update w node (w node + w s)) = sl.map w := by
          apply List.map_congr_left
          intro a ha
          refine Function.update_noteq ?_ _ _
          intro hc
          rw [hc] at ha
          exact hnsl ha
        rw [hmap, List.map_cons, List.sum_cons]
        have hs : Function.update w node (w node + w s) s = w s :=
          Function.update_noteq (fun hc => hns hc.symm) _ _
        ring
      · intro y hy
        rw [List.foldl_cons, ih2 y hy]
        exact Function.update_noteq hy _ _

theorem pwStep_self (tasks : List α) (predecessors : α → List α) (w : α → ℚ) (node : α)
    (h : node ∉ successors tasks predecessors node) :
    pwStep tasks predecessors w node node =
      w node + ((successors tasks predecessors node).map w).sum :=
  (foldl_update_eval node _ w h).1

theorem pwStep_other (tasks : List α) (predecessors : α → List α) (w : α → ℚ)
    (node y : α) (h : node ∉ successors tasks predecessors node) (hy : y ≠ node) :
    pwStep tasks predecessors w node y = w y :=
  (foldl_update_eval node _ w h).2 y hy

/-- Correctness of the leaves-first accumulation: after folding `pwStep` over
a duplicate-free list in which no element precedes one of its graph
successors, the weight of every processed node satisfies the recurrence
`pw(x) = times(x) + sum of pw over the direct successors of x`, and
unprocessed nodes are untouched. -/
theorem pwFold_main (tasks : List α) (predecessors : α → List α) (times : α → ℚ) :
    ∀ (L : List α) (pw : α → ℚ), L.Nodup →
      (∀ x ∈ L, x ∉ successors tasks predecessors x) →
      L.Pairwise (fun a b => b ∉ successors tasks predecessors a) →
      (∀ x ∈ L, pw x = times x) →
      (∀ y, y ∉ L → L.foldl (pwStep tasks predecessors) pw y = pw y) ∧
      (∀ x ∈ L, L.foldl (pwStep tasks predecessors) pw x =
        times x + ((successors tasks predecessors x).map
          (L.foldl (pwStep tasks predecessors) pw)).sum) := by
  intro L
  induction L with
  | nil => intro pw _ _ _ _; exact ⟨fun y _ => rfl, fun x hx => absurd hx (by simp)⟩
  | cons x L ih =>
      intro pw hnd hself hpair hinit
      have hxL : x ∉ L := (List.nodup_cons.mp hnd).1
      have hndL : L.Nodup := (List.nodup_cons.mp hnd).2
      have hselfx : x ∉ successors tasks predecessors x := hself x (by simp)
      have hpairx : ∀ b ∈ L, b ∉ successors tasks predecessors x :=
        (List.pairwise_cons.mp hpair).1
      have hpairL : L.Pairwise (fun a b => b ∉ successors tasks predecessors a) :=
        (List.pairwise_cons.mp hpair).2
      have hinitL : ∀ y ∈ L, pwStep tasks predecessors pw x y = times y := by
        intro y hy
        rw [pwStep_other tasks predecessors pw x y hselfx (fun hc => hxL (hc ▸ hy))]
        exact hinit y (by simp [hy])
      obtain ⟨c2, c1⟩ := ih (pwStep tasks predecessors pw x) hndL
        (fun y hy => hself y (by simp [hy])) hpairL hinitL
      have hF : ∀ y, (x :: L).foldl (pwStep tasks predecessors) pw y =
          L.foldl (pwStep tasks predecessors) (pwStep tasks predecessors pw x) y := by
        intro y; rw [List.foldl_cons]
      constructor
      · intro y hy
        have hyx : y ≠ x := fun hc => hy (by simp [hc])
        have hyL : y ∉ L := fun hc => hy (by simp [hc])
        rw [hF, c2 y hyL]
        exact pwStep_other tasks predecessors pw x y hselfx hyx
      · intro y hy
        rcases List.mem_cons.mp hy with hy | hy
        · subst hy
          rw [hF, c2 y hxL, pwStep_self tasks predecessors pw y hselfx]
          have hsucc : ∀ s ∈ successors tasks predecessors y,
              (y :: L).foldl (pwStep tasks predecessors) pw s = pw s := by
            intro s hs
            have hsy : s ≠ y := fun hc => hselfx (hc ▸ hs)
            have hsL : s ∉ L := fun hc => hpairx s hc hs
            rw [hF, c2 s hsL]
            exact pwStep_other tasks predecessors pw y s hselfx hsy
          have hmap : (successors tasks predecessors y).map
              ((y :: L).foldl (pwStep tasks predecessors) pw) =
              (successors tasks predecessors y).map pw := by
            apply List.map_congr_left
            intro a ha
            exact hsucc a ha
          rw [hmap, hinit y (by simp)]
        · rw [hF, c1 y hy]
          have hmap : (successors tasks predecessors y).map
              ((x :: L).foldl (pwStep tasks predecessors) pw) =
              (successors tasks predecessors y).map
                (L.foldl (pwStep tasks predecessors) (pwStep tasks predecessors pw x)) := by
            apply List.map_congr_left
            intro a _
            exact hF a
          rw [hmap]

/-- Recurrence satisfied by the computed positional weights for any
topological order of an acyclic graph. -/
theorem cpw_recurrence (tasks : List α) (times : α → ℚ) (predecessors : α → List α)
    (topo : List α) (h : IsTopoOrder tasks predecessors topo) :
    ∀ t ∈ tasks, compute_positional_weights tasks times predecessors topo t =
      times t + ((successors tasks predecessors t).map
        (compute_positional_weights tasks times predecessors topo)).sum := by
  obtain ⟨hnd, hsub1, hsub2, hpair, hself⟩ := h
  intro t ht
  have hnd2 : topo.reverse.Nodup := List.nodup_reverse.mpr hnd
  have hself2 : ∀ x ∈ topo.reverse, x ∉ successors tasks predecessors x := by
    intro x hx hc
    have hx2 : x ∈ tasks := hsub1 x (List.mem_reverse.mp hx)
    exact hself x hx2 ((mem_successors tasks predecessors x x).mp hc).2
  have hpair2 : topo.reverse.Pairwise (fun a b => b ∉ successors tasks predecessors a) := by
    rw [List.pairwise_reverse]
    refine List.Pairwise.imp ?_ hpair
    intro a b hab hc
    exact hab ((mem_successors tasks predecessors a b).mp hc).2
  have hinit : ∀ x ∈ topo.reverse, (fun u => times u) x = times x := fun _ _ => rfl
  obtain ⟨_, c1⟩ := pwFold_main tasks predecessors times topo.reverse
    (fun u => times u) hnd2 hself2 hpair2 hinit
  exact c1 t (List.mem_reverse.mpr (hsub2 t ht))

/-! ### Remaining glue lemmas -/

theorem algorithm_isSome (inp : LBInput α) (topo : List α) (fuel : Nat)
    (h : (lbLoop inp (keyFn inp topo) fuel initState).isSome = true) :
    (line_balancing_algorithm inp topo fuel).isSome = true := by
  unfold line_balancing_algorithm
  cases hl : lbLoop inp (keyFn inp topo) fuel initState with
  | none => rw [hl] at h; cases h
  | some r => cases r with
    | error e => rfl
    | ok s => rfl

/-- Master extraction for a successfully returning run of the algorithm on a
valid input: a final loop state satisfying the full invariant, with all tasks
assigned, from which the returned pair is built. -/
theorem run_ok_master (inp : LBInput α) (topo : List α) {fuel : Nat}
    {ws : List (Nat × List α)} {m : Metrics}
    (hval : ValidInput inp)
    (hrun : line_balancing_algorithm inp topo fuel = some (.ok (ws, m))) :
    ∃ sf, lbLoop inp (keyFn inp topo) fuel initState = some (.ok sf) ∧
      buildResult inp sf = .ok (ws, m) ∧ Inv inp sf ∧
      inp.tasks.length ≤ sf.assigned.length := by
  obtain ⟨sf, hl, hb⟩ := algorithm_inv inp topo hrun
  by_cases hnil : inp.tasks = []
  · exact absurd hrun (no_ok_of_tasks_nil inp topo hnil fuel _)
  · have hC : 0 ≤ inp.cycle_time := le_of_lt hval.2.2.1
    obtain ⟨hinv, hlen⟩ := lbLoop_ok_inv inp (keyFn inp topo) (Inv inp)
      (fun s s1 h hit => inv_next inp (keyFn inp topo) hC h hit) fuel initState sf
      (inv_init inp hC hnil) hl
    exact ⟨sf, hl, hb, hinv, hlen⟩

/-- In a finished run the assigned tasks are exactly the input tasks, so the
concatenation of the station lists is a permutation of the task list. -/
theorem final_flatten_perm (inp : LBInput α) {sf : LBState α}
    (hinv : Inv inp sf)
    (hlen : inp.tasks.length ≤ sf.assigned.length) :
    (stationsList sf).flatten.Perm inp.tasks := by
  obtain ⟨hnd, hsub, hperm⟩ := hinv.inv0
  exact hperm.trans
    (List.Subperm.perm_of_length_le (List.Nodup.subperm hnd hsub) hlen)

/-- In a finished run every station, the open one included, is nonempty. -/
theorem final_stations_ne (inp : LBInput α) {sf : LBState α}
    (hinv : Inv inp sf) (hlen : inp.tasks.length ≤ sf.assigned.length) :
    ∀ l ∈ stationsList sf, l ≠ [] := by
  intro l hl
  rcases List.mem_append.mp hl with h1 | h1
  · exact hinv.closed_ne l h1
  · simp only [List.mem_singleton] at h1
    subst h1
    rcases hinv.exitcond with h2 | h2
    · omega
    · exact h2

/-- On `badA` (single task of duration 15, cycle time 10) the loop never
halts: in every reachable state nothing is assigned and the fresh station is
empty, the single candidate never fits, and a new station is opened forever. -/
theorem badA_loop_none :
    ∀ (fuel : Nat) (s : LBState String), s.assigned = [] → s.curTime = 0 →
      lbLoop badA (keyFn badA []) fuel s = none := by
  intro fuel
  induction fuel with
  | zero => intro s _ _; rfl
  | succ fuel ih =>
      intro s ha h0
      have hcand : candOf badA s = ["A"] := by
        unfold candOf
        rw [ha]
        decide
      have hfit : fitB badA s "A" = false := by
        unfold fitB
        rw [h0]
        decide
      have hfind : (sortDesc (keyFn badA []) (candOf badA s)).find? (fitB badA s) = none := by
        rw [hcand]
        have hsort : sortDesc (keyFn badA []) ["A"] = ["A"] := rfl
        rw [hsort]
        rw [List.find?_cons_of_neg _ (by rw [hfit]; exact Bool.false_ne_true)]
        rfl
      rw [lbLoop_succ]
      rcases lbIter_spec badA (keyFn badA []) s with ⟨hle, _⟩ | ⟨_, hc, hit⟩ |
        ⟨t, _, _, hf, _⟩ | ⟨_, _, _, hit⟩
      · rw [ha] at hle
        simp [badA] at hle
      · rw [hcand] at hc
        cases hc
      · rw [hfind] at hf
        cases hf
      · rw [hit]
        refine ih (openStation s) ?_ rfl
        simp [openStation, ha]

/-! ## The claims -/

/-- C1 (counterexample): the input `badA` satisfies every hypothesis of the
claim - unique identifiers, positive durations, positive cycle time, acyclic
predecessor map inside the task list - yet `line_balancing_algorithm` does
not terminate on it: for every amount of fuel the allocation loop is still
running.  The single task (duration 15) never fits a station under cycle
time 10, so the loop opens fresh stations forever. -/
theorem C1_counterexample :
    ValidInput badA ∧ ∀ fuel : Nat, line_balancing_algorithm badA [] fuel = none := by
  refine ⟨by decide, ?_⟩
  intro fuel
  unfold line_balancing_algorithm
  rw [badA_loop_none fuel initState rfl rfl]

/-- C1 (amended): for every valid input in which additionally every task
duration is at most the cycle time, the invocation terminates - with fuel
`2*n+1` the loop has either returned an (assignment, metrics) pair or raised
an error. -/
theorem C1_terminates (inp : LBInput α) (topo : List α)
    (hval : ValidInput inp)
    (hfits : ∀ t ∈ inp.tasks, inp.times t ≤ inp.cycle_time) :
    (line_balancing_algorithm inp topo (2 * inp.tasks.length + 1)).isSome = true := by
  refine algorithm_isSome inp topo _ ?_
  refine lbLoop_isSome_of_fits inp (keyFn inp topo) hfits inp.tasks.length _ initState ?_
    (le_refl _)
  simp [initState]

/-- C1 (witness): the amended termination theorem applied to the concrete
two-task input `inp9`. -/
theorem C1_terminates_witness :
    ValidInput inp9 ∧ (∀ t ∈ inp9.tasks, inp9.times t ≤ inp9.cycle_time) ∧
      (line_balancing_algorithm inp9 [] (2 * inp9.tasks.length + 1)).isSome = true :=
  ⟨by decide, by decide, C1_terminates inp9 [] (by decide) (by decide)⟩

/-- C2: on every valid input on which the algorithm returns, every input task
lies in the task sequence of exactly one station of the returned assignment
(and exactly once there), and the members of the station task lists are
exactly the input tasks. -/
theorem C2_partition (inp : LBInput α) (topo : List α) (fuel : Nat)
    (ws : List (Nat × List α)) (m : Metrics)
    (hval : ValidInput inp)
    (hrun : line_balancing_algorithm inp topo fuel = some (.ok (ws, m))) :
    (∀ t ∈ inp.tasks, ws.countP (fun kl => decide (t ∈ kl.2)) = 1) ∧
    (∀ t : α, (∃ kl ∈ ws, t ∈ kl.2) ↔ t ∈ inp.tasks) := by
  obtain ⟨sf, hl, hb, hinv, hlen⟩ := run_ok_master inp topo hval hrun
  obtain ⟨hz, hws, hm⟩ := buildResult_inv inp hb
  have hflat : (stationsList sf).flatten.Perm inp.tasks := final_flatten_perm inp hinv hlen
  have hndf : (stationsList sf).flatten.Nodup := hflat.nodup_iff.mpr hval.1
  constructor
  · intro t ht
    have hcnt : (stationsList sf).flatten.count t = 1 :=
      List.count_eq_one_of_mem hndf (hflat.mem_iff.mpr ht)
    have hcp : (stationsList sf).countP (fun l => decide (t ∈ l)) = 1 :=
      countP_eq_one_of_count_flatten_one hcnt
    rw [hws]
    unfold wsDict
    rw [List.countP_filter]
    have hfun : (fun (kl : Nat × List α) => decide (t ∈ kl.2) && !kl.2.isEmpty) =
        (fun kl => decide (t ∈ kl.2)) := by
      funext kl
      by_cases hmem : t ∈ kl.2
      · simp [hmem, List.isEmpty_eq_false.mpr (List.ne_nil_of_mem hmem)]
      · simp [hmem]
    rw [hfun]
    exact (numbered_countP_snd (fun l => decide (t ∈ l)) 1 (stationsList sf)).trans hcp
  · intro t
    constructor
    · rintro ⟨kl, hkl, ht⟩
      rw [hws] at hkl
      have h1 := (mem_wsDict sf).mp hkl
      have h2 : kl.2 ∈ stationsList sf := numbered_mem_snd h1.1
      exact hflat.mem_iff.mp (List.mem_flatten.mpr ⟨kl.2, h2, ht⟩)
    · intro ht
      obtain ⟨l, hl, htl⟩ := List.mem_flatten.mp (hflat.mem_iff.mpr ht)
      obtain ⟨k, hk⟩ := mem_numbered_of_mem (n := 1) hl
      refine ⟨(k, l), ?_, htl⟩
      rw [hws]
      exact (mem_wsDict sf).mpr ⟨hk, List.ne_nil_of_mem htl⟩

/-- C2 (witness): the partition theorem applied to the run on `inp9`. -/
theorem C2_partition_witness :
    ValidInput inp9 ∧ line_balancing_algorithm inp9 [] 5 = some (.ok (ws9, m9)) ∧
      ((∀ t ∈ inp9.tasks, ws9.countP (fun kl => decide (t ∈ kl.2)) = 1) ∧
       (∀ t : String, (∃ kl ∈ ws9, t ∈ kl.2) ↔ t ∈ inp9.tasks)) :=
  ⟨by decide, by decide, C2_partition inp9 [] 5 ws9 m9 (by decide) (by decide)⟩

/-- C3: on every valid input on which the algorithm returns, the cumulative
time of every station of the returned assignment - the sum of the durations
of its tasks - is at most the cycle time. -/
theorem C3_capacity (inp : LBInput α) (topo : List α) (fuel : Nat)
    (ws : List (Nat × List α)) (m : Metrics)
    (hval : ValidInput inp)
    (hrun : line_balancing_algorithm inp topo fuel = some (.ok (ws, m))) :
    ∀ kl ∈ ws, sumDur inp kl.2 ≤ inp.cycle_time := by
  obtain ⟨sf, hl, hb, hinv, hlen⟩ := run_ok_master inp topo hval hrun
  obtain ⟨hz, hws, hm⟩ := buildResult_inv inp hb
  intro kl hkl
  rw [hws] at hkl
  have h1 := (mem_wsDict sf).mp hkl
  have h2 : kl.2 ∈ stationsList sf := numbered_mem_snd h1.1
  rcases List.mem_append.mp h2 with h3 | h3
  · exact hinv.closed_le kl.2 h3
  · simp only [List.mem_singleton] at h3
    rw [h3, ← hinv.cur_eq]
    exact hinv.cur_le

/-- C3 (witness): the capacity theorem applied to the run on `inp9`. -/
theorem C3_capacity_witness :
    ValidInput inp9 ∧ line_balancing_algorithm inp9 [] 5 = some (.ok (ws9, m9)) ∧
      ∀ kl ∈ ws9, sumDur inp9 kl.2 ≤ inp9.cycle_time :=
  ⟨by decide, by decide, C3_capacity inp9 [] 5 ws9 m9 (by decide) (by decide)⟩

/-- C4: on every valid input on which the algorithm returns, every task is
placed in some station, and for each of its predecessors the station number
of the task is at least the station number of the predecessor; when the two
station numbers coincide the stations are the same and the predecessor
occurs earlier in that station's ordered task sequence. -/
theorem C4_precedence (inp : LBInput α) (topo : List α) (fuel : Nat)
    (ws : List (Nat × List α)) (m : Metrics)
    (hval : ValidInput inp)
    (hrun : line_balancing_algorithm inp topo fuel = some (.ok (ws, m))) :
    ∀ t ∈ inp.tasks, ∀ p ∈ inp.predecessors t,
      (∃ kt lt, (kt, lt) ∈ ws ∧ t ∈ lt) ∧
      (∀ kt lt kp lp, (kt, lt) ∈ ws → t ∈ lt → (kp, lp) ∈ ws → p ∈ lp →
        kp ≤ kt ∧ (kp = kt → [p, t].Sublist lt)) := by
  obtain ⟨sf, hl, hb, hinv, hlen⟩ := run_ok_master inp topo hval hrun
  obtain ⟨hz, hws, hm⟩ := buildResult_inv inp hb
  have hflat : (stationsList sf).flatten.Perm inp.tasks := final_flatten_perm inp hinv hlen
  have hndf : (stationsList sf).flatten.Nodup := hflat.nodup_iff.mpr hval.1
  intro t ht p hp
  constructor
  · obtain ⟨l, hl2, htl⟩ := List.mem_flatten.mp (hflat.mem_iff.mpr ht)
    obtain ⟨k, hk⟩ := mem_numbered_of_mem (n := 1) hl2
    refine ⟨k, l, ?_, htl⟩
    rw [hws]
    exact (mem_wsDict sf).mpr ⟨hk, List.ne_nil_of_mem htl⟩
  · intro kt lt kp lp hkt htlt hkp hplp
    rw [hws] at hkt hkp
    have hkt1 := ((mem_wsDict sf).mp hkt).1
    have hkp1 := ((mem_wsDict sf).mp hkp).1
    rcases precOk_exists inp.predecessors (stationsList sf) 1 [] hinv.prec
        kt lt hkt1 t htlt p hp with h3 | ⟨kp0, lp0, hm0, hp0, hle0, himp0⟩
    · cases h3
    · obtain ⟨hkeq, hleq⟩ := numbered_eq_of_mem_mem hndf hkp1 hm0 hplp hp0
      constructor
      · rw [hkeq]; exact hle0
      · intro hkpt
        have h4 := himp0 (by omega)
        exact h4.2

/-- C4 (witness): the precedence theorem applied to the run on `inp9`. -/
theorem C4_precedence_witness :
    ValidInput inp9 ∧ line_balancing_algorithm inp9 [] 5 = some (.ok (ws9, m9)) ∧
      ∀ t ∈ inp9.tasks, ∀ p ∈ inp9.predecessors t,
        (∃ kt lt, (kt, lt) ∈ ws9 ∧ t ∈ lt) ∧
        (∀ kt lt kp lp, (kt, lt) ∈ ws9 → t ∈ lt → (kp, lp) ∈ ws9 → p ∈ lp →
          kp ≤ kt ∧ (kp = kt → [p, t].Sublist lt)) :=
  ⟨by decide, by decide, C4_precedence inp9 [] 5 ws9 m9 (by decide) (by decide)⟩

/-- C5 (counterexample): on `badU`, whose predecessor map references the
unknown identifier `X`, no error is raised before allocation: the very first
loop iteration places task `A` into station 1, and only afterwards does the
run abort - with the `ValueError` of the allocation loop, not a validation
error raised before any allocation work. -/
theorem C5_counterexample :
    ("X" ∈ badU.predecessors "B" ∧ "X" ∉ badU.tasks) ∧
    lbIter badU (keyFn badU []) initState = .next ⟨[], [], ["A"], 3, ["A"]⟩ ∧
    line_balancing_algorithm badU [] 5 =
      some (.error ("No eligible tasks found - check precedence data.")) :=
  ⟨by decide, by decide, by decide⟩

/-- C5 (amended): for every input that lists a task with a predecessor
absent from the task list and whose durations all fit the cycle time, the
engine terminates by raising the `ValueError` of the allocation loop
("No eligible tasks found"), not a pre-allocation validation error; it never
returns an assignment. -/
theorem C5_raises (inp : LBInput α) (topo : List α) (t0 p0 : α)
    (ht0 : t0 ∈ inp.tasks) (hp0 : p0 ∈ inp.predecessors t0)
    (hout : p0 ∉ inp.tasks)
    (hfits : ∀ t ∈ inp.tasks, inp.times t ≤ inp.cycle_time) :
    line_balancing_algorithm inp topo (2 * inp.tasks.length + 1) =
      some (.error ("No eligible tasks found - check precedence data.")) := by
  have hsome := lbLoop_isSome_of_fits inp (keyFn inp topo) hfits inp.tasks.length
    (2 * inp.tasks.length + 1) initState (by simp [initState]) (le_refl _)
  cases hl : lbLoop inp (keyFn inp topo) (2 * inp.tasks.length + 1) initState with
  | none => rw [hl] at hsome; cases hsome
  | some r =>
      cases r with
      | ok sf =>
          exact absurd hl
            (lbLoop_no_ok_of_unknown_pred inp (keyFn inp topo) ht0 hp0 hout
              (2 * inp.tasks.length + 1) initState (inv0_init inp) (by simp [initState]) sf)
      | error e =>
          have he := lbLoop_error_msg inp (keyFn inp topo) _ _ _ hl
          unfold line_balancing_algorithm
          rw [hl, he]

/-- C5 (witness): the amended theorem applied to the concrete input `badU`. -/
theorem C5_raises_witness :
    "B" ∈ badU.tasks ∧ "X" ∈ badU.predecessors "B" ∧ "X" ∉ badU.tasks ∧
      (∀ t ∈ badU.tasks, badU.times t ≤ badU.cycle_time) ∧
      line_balancing_algorithm badU [] (2 * badU.tasks.length + 1) =
        some (.error ("No eligible tasks found - check precedence data.")) :=
  ⟨by decide, by decide, by decide, by decide,
    C5_raises badU [] "B" "X" (by decide) (by decide) (by decide) (by decide)⟩

/-- C6 (counterexample): on the diamond graph 1 → 2, 1 → 3, 2 → 4, 3 → 4
with unit durations, `compute_positional_weights` gives node 1 the weight 5:
the shared descendant 4 is counted once for each of the two paths reaching
it, whereas the positional weight of the specification (own duration plus
each transitive successor's duration counted once) is 4. -/
theorem C6_counterexample :
    IsTopoOrder tasks6 preds6 [1, 2, 3, 4] ∧
    compute_positional_weights tasks6 times6 preds6 [1, 2, 3, 4] 1 = 5 ∧
    spec_positional_weight tasks6 times6 preds6 1 = 4 :=
  ⟨by decide, by decide, by decide⟩

/-- C6 (amended): for every acyclic graph and every topological order of it,
the computed positional weight of a task equals its own duration plus the
sum of the computed weights of its direct successors - so a descendant
reachable along several distinct paths contributes once per path, not
once. -/
theorem C6_recurrence (tasks : List α) (times : α → ℚ)
    (predecessors : α → List α) (topo : List α)
    (h : IsTopoOrder tasks predecessors topo) :
    ∀ t ∈ tasks, compute_positional_weights tasks times predecessors topo t =
      times t + ((successors tasks predecessors t).map
        (compute_positional_weights tasks times predecessors topo)).sum :=
  cpw_recurrence tasks times predecessors topo h

/-- C6 (witness): the recurrence applied to the diamond graph. -/
theorem C6_recurrence_witness :
    IsTopoOrder tasks6 preds6 [1, 2, 3, 4] ∧
      ∀ t ∈ tasks6, compute_positional_weights tasks6 times6 preds6 [1, 2, 3, 4] t =
        times6 t + ((successors tasks6 preds6 t).map
          (compute_positional_weights tasks6 times6 preds6 [1, 2, 3, 4])).sum :=
  ⟨by decide, C6_recurrence tasks6 times6 preds6 [1, 2, 3, 4] (by decide)⟩

/-- C7 (counterexample): on the valid input `inp7` (durations 5.001 and
5.004, cycle time 10) the algorithm returns metrics whose `min_stations`
field is 1, although the exact ceiling of total work over cycle time is
`ceil(10.005/10) = 2`: the 0.01 epsilon subtraction makes the integer
division undershoot. -/
theorem C7_counterexample :
    ValidInput inp7 ∧
    line_balancing_algorithm inp7 [] 5 = some (.ok ([(1, ["B"]), (2, ["A"])], m7)) ∧
    m7.min_stations = 1 ∧ (⌈totalWork inp7 / inp7.cycle_time⌉ : ℤ) = 2 :=
  ⟨by decide, by decide, by decide, by decide⟩

/-- C7 (amended): on every valid input with integer durations and integer
cycle time on which the algorithm returns, the `min_stations` field of the
returned metrics equals the exact mathematical ceiling of total work divided
by cycle time. -/
theorem C7_min_stations (inp : LBInput α) (topo : List α) (fuel : Nat)
    (ws : List (Nat × List α)) (m : Metrics)
    (hval : ValidInput inp)
    (hden : ∀ t ∈ inp.tasks, (inp.times t).den = 1)
    (hCden : inp.cycle_time.den = 1)
    (hrun : line_balancing_algorithm inp topo fuel = some (.ok (ws, m))) :
    m.min_stations = ⌈totalWork inp / inp.cycle_time⌉ := by
  obtain ⟨sf, hl, hb, hinv, hlen⟩ := run_ok_master inp topo hval hrun
  obtain ⟨hz, hws, hm⟩ := buildResult_inv inp hb
  have hnil : inp.tasks ≠ [] := by
    intro hc
    exact absurd hrun (no_ok_of_tasks_nil inp topo hc fuel _)
  have hWden : (totalWork inp).den = 1 := by
    refine den_one_sum _ ?_
    intro x hx
    obtain ⟨t, ht, rfl⟩ := List.mem_map.mp hx
    exact hden t ht
  have hW1 : 1 ≤ totalWork inp := by
    refine one_le_sum ?_ ?_
    · intro x hx
      obtain ⟨t, ht, rfl⟩ := List.mem_map.mp hx
      exact one_le_of_den_one_pos (hden t ht) (hval.2.1 t ht)
    · simp only [ne_eq, List.map_eq_nil_iff]
      exact hnil
  have hC1 : 1 ≤ inp.cycle_time := one_le_of_den_one_pos hCden hval.2.2.1
  have hmin : m.min_stations =
      max 1 ⌊(totalWork inp + inp.cycle_time - 1 / 100) / inp.cycle_time⌋ := by
    rw [hm]
  rw [hmin]
  exact epsilon_floor_eq_ceil hWden hCden hW1 hC1

/-- C7 (witness): the amended theorem applied to the run on `inp9`, where
`min_stations = 2 = ceil(13/10)`. -/
theorem C7_min_stations_witness :
    ValidInput inp9 ∧ (∀ t ∈ inp9.tasks, (inp9.times t).den = 1) ∧
      inp9.cycle_time.den = 1 ∧
      line_balancing_algorithm inp9 [] 5 = some (.ok (ws9, m9)) ∧
      m9.min_stations = ⌈totalWork inp9 / inp9.cycle_time⌉ :=
  ⟨by decide, by decide, by decide, by decide,
    C7_min_stations inp9 [] 5 ws9 m9 (by decide) (by decide) (by decide) (by decide)⟩

/-- C8 (counterexample): on the empty task list the allocation loop
completes successfully at once (nothing to assign), yet the metrics
derivation fails: the efficiency division by `actual_stations * cycle_time
= 0` raises `ZeroDivisionError`. -/
theorem C8_counterexample :
    lbLoop inpE (keyFn inpE []) 1 initState = some (.ok initState) ∧
    line_balancing_algorithm inpE [] 1 =
      some (.error ("ZeroDivisionError: float division by zero")) :=
  ⟨by decide, by decide⟩

/-- C8 (amended): whenever the allocation loop completes successfully on an
input with a nonempty task list and a nonzero cycle time, the metrics
derivation never fails: computing total work, idle time, efficiency and
balance delay raises no error. -/
theorem C8_metrics_total (inp : LBInput α) (key : α → ℚ) (fuel : Nat)
    (sf : LBState α)
    (hne : inp.tasks ≠ []) (hC : inp.cycle_time ≠ 0)
    (hrun : lbLoop inp key fuel initState = some (.ok sf)) :
    ∃ p, buildResult inp sf = Except.ok p := by
  obtain ⟨⟨hnd, hsub, hperm⟩, hlen⟩ := lbLoop_ok_inv inp key (Inv0 inp)
    (fun s s1 h hit => Or.inl (inv0_next inp key h hit)) fuel initState sf
    (inv0_init inp) hrun
  have hflen : 0 < (stationsList sf).flatten.length := by
    rw [hperm.length_eq]
    have h1 : 0 < inp.tasks.length := List.length_pos.mpr hne
    omega
  obtain ⟨t, htf⟩ := List.exists_mem_of_length_pos hflen
  obtain ⟨l, hl, htl⟩ := List.mem_flatten.mp htf
  have hwsne : wsDict sf ≠ [] := wsDict_ne_nil sf hl (List.ne_nil_of_mem htl)
  have hlen2 : (wsDict sf).length ≠ 0 := by
    intro hc
    exact hwsne (List.length_eq_zero.mp hc)
  have hz : ((wsDict sf).length : ℚ) * inp.cycle_time ≠ 0 :=
    mul_ne_zero (Nat.cast_ne_zero.mpr hlen2) hC
  unfold buildResult
  rw [if_neg hz]
  exact ⟨_, rfl⟩

/-- C8 (witness): the amended theorem applied to the loop run on `inp9`. -/
theorem C8_metrics_total_witness :
    inp9.tasks ≠ [] ∧ inp9.cycle_time ≠ 0 ∧
      lbLoop inp9 (keyFn inp9 []) 5 initState = some (.ok sf9) ∧
      ∃ p, buildResult inp9 sf9 = Except.ok p :=
  ⟨by decide, by decide, by decide,
    C8_metrics_total inp9 (keyFn inp9 []) 5 sf9 (by decide) (by decide) (by decide)⟩

/-- C9: on the end-to-end scenario - tasks A (8 s, no predecessors) and
B (5 s, predecessor A), cycle time 10, longest-task-time heuristic - the
algorithm returns station 1 = [A] and station 2 = [B] with
`min_stations = 2`, `actual_stations = 2`, `idle_time = 7` and
`efficiency = 65`. -/
theorem C9_end_to_end :
    line_balancing_algorithm inp9 [] 5 = some (.ok (ws9, m9)) ∧
    m9.min_stations = 2 ∧ m9.actual_stations = 2 ∧ m9.idle_time = 7 ∧
    m9.efficiency = 65 ∧ ws9 = [(1, ["A"]), (2, ["B"])] :=
  ⟨by decide, by decide, by decide, by decide, by decide, by decide⟩

/-- C10: on every valid input on which the algorithm returns, the station
numbers of the `station_times` map of the metrics are exactly the station
numbers of the returned assignment - no station with an empty task list is
reported - and each recorded cumulative time is the sum of the durations of
exactly the tasks of that station. -/
theorem C10_station_times (inp : LBInput α) (topo : List α) (fuel : Nat)
    (ws : List (Nat × List α)) (m : Metrics)
    (hval : ValidInput inp)
    (hrun : line_balancing_algorithm inp topo fuel = some (.ok (ws, m))) :
    m.station_times.map Prod.fst = ws.map Prod.fst ∧
    List.Forall₂ (fun (kt : Nat × ℚ) (kl : Nat × List α) =>
      kt.1 = kl.1 ∧ kt.2 = sumDur inp kl.2) m.station_times ws := by
  obtain ⟨sf, hl, hb, hinv, hlen⟩ := run_ok_master inp topo hval hrun
  obtain ⟨hz, hws, hm⟩ := buildResult_inv inp hb
  have hne : ∀ l ∈ stationsList sf, l ≠ [] := final_stations_ne inp hinv hlen
  have hwseq : wsDict sf = numbered 1 (stationsList sf) := wsDict_eq_numbered sf hne
  have hst : m.station_times = numbered 1 (timesList sf) := by rw [hm]
  have hlens : (timesList sf).length = (stationsList sf).length := by
    simp [timesList, stationsList, hinv.len_eq]
  constructor
  · rw [hst, hws, hwseq, numbered_map_fst, numbered_map_fst, hlens]
  · have hbase : List.Forall₂ (fun τ l => τ = sumDur inp l)
        (timesList sf) (stationsList sf) :=
      List.rel_append hinv.times_eq (List.forall₂_cons.mpr ⟨hinv.cur_eq, List.Forall₂.nil⟩)
    have h2 := numbered_forall₂ (fun τ l => τ = sumDur inp l) 1 _ _ hbase
    rw [hst, hws, hwseq]
    exact h2

/-- C10 (witness): the station-times theorem applied to the run on `inp9`. -/
theorem C10_station_times_witness :
    ValidInput inp9 ∧ line_balancing_algorithm inp9 [] 5 = some (.ok (ws9, m9)) ∧
      (m9.station_times.map Prod.fst = ws9.map Prod.fst ∧
       List.Forall₂ (fun (kt : Nat × ℚ) (kl : Nat × List String) =>
         kt.1 = kl.1 ∧ kt.2 = sumDur inp9 kl.2) m9.station_times ws9) :=
  ⟨by decide, by decide, C10_station_times inp9 [] 5 ws9 m9 (by decide) (by decide)⟩

end LB
